import Mathlib

/-!
# Caboose Numbers: a verification development

Shallow embedding of `Caboose Numbers/Caboose Numbers.cpp`.

* `long long` values are mathematical integers (`Int`); every product, and every
  sum or difference that can leave the signed 64-bit range, is wrapped with
  `wrap64` (two's complement, modulo `2^64`).
* `%` and `/` of C++ truncate towards zero: `Int.tmod` and `Int.tdiv`.
* `>>` on a `long long` is the arithmetic shift: `Int.shiftRight`.
* Every `while`/`for` loop is a recursive function on an explicit fuel argument that
  returns `none` when the fuel runs out; a division by zero is `none` as well.
* The probe loop of `isCabooseNumber` is run sequentially, from `n = 0` upwards.
  The `primes` argument of `isCabooseNumber` is never read and is left out.
-/

namespace Caboose

/-- Two's-complement wrap of an integer into the signed 64-bit range. -/
def wrap64 (x : Int) : Int := (x + 2 ^ 63) % 2 ^ 64 - 2 ^ 63

/-- The global table `bases` (line 8). -/
def bases : List Int := [2, 3, 5, 7, 11, 13, 17, 19, 23]

/-- The `while (exp > 0)` loop of `modularExponentiation` (lines 14-20). -/
def modExpLoop : Nat → Int → Int → Int → Int → Option Int
  | 0, _, _, _, _ => none
  | fuel + 1, result, base, exp, mod =>
    if exp > 0 then
      modExpLoop fuel
        (if Int.tmod exp 2 = 1 then Int.tmod (wrap64 (result * base)) mod else result)
        (Int.tmod (wrap64 (base * base)) mod) (exp >>> (1 : Nat)) mod
    else some result

/-- Function `modularExponentiation` (lines 10-23). A zero modulus is a division by zero. -/
def modularExponentiation (base exp mod : Int) : Option Int :=
  if mod = 0 then none else modExpLoop 64 1 (Int.tmod base mod) exp mod

/-- The `while (d % 2 == 0)` loop of `isPrime` (lines 33-36); returns the final `(d, r)`. -/
def decomposeLoop : Nat → Int → Int → Option (Int × Int)
  | 0, _, _ => none
  | fuel + 1, d, r =>
    if Int.tmod d 2 = 0 then decomposeLoop fuel (Int.tdiv d 2) (r + 1) else some (d, r)

/-- The `for (int i = 0; i < r - 1; i++)` loop of `isPrime` (lines 45-51); returns the
final value of the flag `composite`. -/
def squareLoop : Nat → Int → Int → Int → Int → Option Bool
  | 0, _, _, _, _ => none
  | fuel + 1, i, r, x, n =>
    if i < r - 1 then
      match modularExponentiation x 2 n with
      | none => none
      | some y => if y = n - 1 then some false else squareLoop fuel (i + 1) r y n
    else some true

/-- The `for (long long a : bases)` loop of `isPrime` (lines 38-53), followed by the
final `return true` (line 55). -/
def witnessLoop (d r n : Int) : List Int → Option Bool
  | [] => some true
  | a :: rest =>
    if a > n - 2 then witnessLoop d r n rest
    else
      match modularExponentiation a d n with
      | none => none
      | some x =>
        if x = 1 ∨ x = n - 1 then witnessLoop d r n rest
        else
          match squareLoop 64 0 r x n with
          | none => none
          | some true => some false
          | some false => witnessLoop d r n rest

/-- Function `isPrime` (lines 25-56). -/
def isPrime (n : Int) : Option Bool :=
  if n ≤ 1 then some false
  else if n ≤ 3 then some true
  else if Int.tmod n 2 = 0 then some false
  else
    match decomposeLoop 64 (n - 1) 0 with
    | none => none
    | some (d, r) => witnessLoop d r n bases

/-- The probe value `n * n - n + c` (line 64) in 64-bit arithmetic. -/
def probe (n c : Int) : Int := wrap64 (wrap64 (wrap64 (n * n) - n) + c)

/-- The `for (long long n = 0; n < c; n++)` loop of `isCabooseNumber` (lines 63-66), run
sequentially. Inside the loop `n < c`, so `n + 1` stays in range. -/
def cabooseLoop : Nat → Int → Int → Option Bool
  | 0, _, _ => none
  | fuel + 1, n, c =>
    if n < c then
      match isPrime (probe n c) with
      | none => none
      | some false => some false
      | some true => cabooseLoop fuel (n + 1) c
    else some true

/-- Function `isCabooseNumber` (lines 59-68). -/
def isCabooseNumber (c : Int) : Option Bool := cabooseLoop (c.toNat + 1) 0 c

/-- The search loop of `main` (lines 102-105): the list of the values `i` printed, in the
order they are printed. -/
def searchLoop : Nat → Int → Int → Option (List Int)
  | 0, _, _ => none
  | fuel + 1, i, limit =>
    if i ≤ limit then
      match isCabooseNumber i with
      | none => none
      | some b =>
        match searchLoop fuel (wrap64 (i + 1)) limit with
        | none => none
        | some l => some (if b then i :: l else l)
    else some []

/-- The values emitted by `main` when its constant `limit` has the given value. -/
def search (limit : Int) : Option (List Int) := searchLoop (limit.toNat + 2) 0 limit

/-- Strong-probable-prime condition of `n` to the base `a`, where `n - 1 = d * 2 ^ r`
(the condition a Miller-Rabin round tests). -/
def StrongProbablePrime (a d r n : Nat) : Prop :=
  a ^ d % n = 1 ∨ ∃ s, s < r ∧ a ^ (d * 2 ^ s) % n = n - 1

instance (a d r n : Nat) : Decidable (StrongProbablePrime a d r n) := by
  unfold StrongProbablePrime
  infer_instance

/-- The witness table as natural numbers. -/
def natBases : List Nat := [2, 3, 5, 7, 11, 13, 17, 19, 23]

/-- The products `result * base` (line 16) and `base * base` (line 19) that the loop of
`modularExponentiation` forms, before they are stored in a `long long`, in the order the
loop forms them. -/
def modExpProducts : Nat → Int → Int → Int → Int → List Int
  | 0, _, _, _, _ => []
  | fuel + 1, result, base, exp, mod =>
    if exp > 0 then
      (if Int.tmod exp 2 = 1 then [result * base] else []) ++ [base * base] ++
        modExpProducts fuel
          (if Int.tmod exp 2 = 1 then Int.tmod (wrap64 (result * base)) mod else result)
          (Int.tmod (wrap64 (base * base)) mod) (exp >>> (1 : Nat)) mod
    else []

/-! ### A certificate checker for the odd composites up to `10 ^ 7`

The functions below are written with the primitive operations of `Nat` so that they
evaluate by plain reduction. -/

/-- Trial division: no `d` with `2 ≤ d < k` divides `n`. -/
def noDivisorBelow (n : Nat) : Nat → Bool
  | 0 => true
  | k + 1 => (Nat.blt k (nat_lit 2) || not (Nat.beq (Nat.mod n k) (nat_lit 0))) && noDivisorBelow n k

/-- The power `a ^ e` modulo `n`, the exponent read in windows of 8 bits. -/
def powModW (a e n : Nat) : Nat :=
  Nat.mod (Nat.mul (Nat.pow (Nat.mod (Nat.mul (Nat.pow (Nat.mod (Nat.pow a
    (Nat.div e (nat_lit 65536))) n) (nat_lit 256))
    (Nat.pow a (Nat.mod (Nat.div e (nat_lit 256)) (nat_lit 256)))) n) (nat_lit 256))
    (Nat.pow a (Nat.mod e (nat_lit 256)))) n

/-- Halves `d` while it is even, counting the halvings in `r`. -/
def oddPart : Nat → Nat → Nat → Nat × Nat
  | 0, d, r => (d, r)
  | f + 1, d, r =>
    cond (Nat.beq (Nat.mod d (nat_lit 2)) (nat_lit 0)) (oddPart f (Nat.div d (nat_lit 2)) (Nat.succ r)) (d, r)

/-- Some `s < k` has `a ^ (d * 2 ^ s) % n = n - 1`. -/
def minusOneBelow (a d n : Nat) : Nat → Bool
  | 0 => false
  | s + 1 => Nat.beq (powModW a (Nat.mul d (Nat.pow (nat_lit 2) s)) n) (Nat.sub n (nat_lit 1)) ||
      minusOneBelow a d n s

/-- Boolean form of `StrongProbablePrime`. -/
def strongTestB (a d r n : Nat) : Bool :=
  Nat.beq (powModW a d n) (nat_lit 1) || minusOneBelow a d n r

/-- The odd `n` fails the strong test to one of the bases `2, 3, 5, 7`. -/
def strongRejects (n : Nat) : Bool :=
  match oddPart 24 (Nat.sub n (nat_lit 1)) (nat_lit 0) with
  | (d, r) =>
    Nat.beq (Nat.mod d (nat_lit 2)) (nat_lit 1) && Nat.beq (Nat.mul d (Nat.pow (nat_lit 2) r)) (Nat.sub n (nat_lit 1)) &&
      not (strongTestB 2 d r n && strongTestB 3 d r n && strongTestB 5 d r n &&
        strongTestB 7 d r n)

/-- The number `n` fails the Fermat test to the base `2` or a strong test. -/
def rejects (n : Nat) : Bool :=
  match n with
  | 0 => false
  | Nat.succ e =>
    not (Nat.beq (powModW (nat_lit 2) e (Nat.succ e)) (nat_lit 1)) || strongRejects (Nat.succ e)

/-- All candidates `p * (1 + j * K)` with `j < count` and `p ≤ 1 + j * K` are rejected. -/
def candLoop (p K : Nat) : Nat → Bool
  | 0 => true
  | j + 1 =>
    (Nat.blt (Nat.succ (Nat.mul j K)) p || rejects (Nat.mul p (Nat.succ (Nat.mul j K)))) &&
      candLoop p K j

/-- The least divisor `g` of `n` among `f, n / f` for `f ≤ count`, and `best`, with
`2 ^ g % p = 1`. -/
def ordSearch (p n : Nat) : Nat → Nat → Nat
  | 0, best => best
  | f + 1, best =>
    match best with
    | 0 => 0
    | Nat.succ b =>
      cond (Nat.beq (Nat.mod n (Nat.succ f)) (nat_lit 0))
        (ordSearch p n f
          (cond (Nat.beq (powModW (nat_lit 2) (Nat.div n (Nat.succ f)) p) (nat_lit 1))
            (Nat.min (Nat.div n (Nat.succ f))
              (cond (Nat.beq (powModW (nat_lit 2) (Nat.succ f) p) (nat_lit 1))
                (Nat.min (Nat.succ f) (Nat.succ b)) (Nat.succ b)))
            (cond (Nat.beq (powModW (nat_lit 2) (Nat.succ f) p) (nat_lit 1))
              (Nat.min (Nat.succ f) (Nat.succ b)) (Nat.succ b))))
        (ordSearch p n f (Nat.succ b))

/-- Every odd `n ≤ 10 ^ 7` that is `p * m` with `m ≥ p` and passes the Fermat test to the
base `2` modulo `p` is rejected. -/
def checkQ (p : Nat) : Bool :=
  match ordSearch p (Nat.sub p (nat_lit 1)) (nat_lit 57) (Nat.sub p (nat_lit 1)) with
  | 0 => false
  | Nat.succ k =>
    Nat.beq (powModW (nat_lit 2) (Nat.succ k) p) (nat_lit 1) &&
    match Nat.mul (Nat.succ k) (Nat.succ (Nat.mod (Nat.succ k) (nat_lit 2))) with
    | 0 => false
    | Nat.succ K =>
      candLoop p (Nat.succ K)
        (Nat.succ (Nat.div (Nat.sub (Nat.div (nat_lit 10000000) p) (nat_lit 1)) (Nat.succ K)))

/-- The number `q` shares a factor with `3 * 5 * 7 * 11 * 13 * 17 * 19 * 23`, or it
exceeds `53` and shares a factor with `29 * 31 * 37 * 41 * 43 * 47 * 53`. -/
def smallFactor (q : Nat) : Bool :=
  Nat.blt (nat_lit 1) (Nat.gcd q (nat_lit 111546435)) ||
    (Nat.blt (nat_lit 1) (Nat.gcd q (nat_lit 146078888479)) && Nat.blt (nat_lit 53) q)

/-- Every `q = lo + 2 * i`, `i < count`, has a small factor or passes `checkQ`. -/
def qLoop (lo : Nat) : Nat → Bool
  | 0 => true
  | i + 1 =>
    match Nat.add lo (Nat.mul (nat_lit 2) i) with
    | 0 => false
    | Nat.succ q => (smallFactor (Nat.succ q) || checkQ (Nat.succ q)) && qLoop lo i

/-! ## Arithmetic facts used by the embedding -/

theorem wrap64_of_range {x : Int} (h1 : -(2 ^ 63) ≤ x) (h2 : x < 2 ^ 63) : wrap64 x = x := by
  unfold wrap64
  omega

theorem wrap64_natCast {x : Nat} (h : x < 2 ^ 63) : wrap64 (x : Int) = (x : Int) := by
  apply wrap64_of_range <;> omega

theorem tmod_natCast (a b : Nat) : Int.tmod (a : Int) (b : Int) = ((a % b : Nat) : Int) :=
  (Int.ofNat_tmod a b).symm

theorem tdiv_natCast (a b : Nat) : Int.tdiv (a : Int) (b : Int) = ((a / b : Nat) : Int) := by
  rw [Int.tdiv_eq_ediv (Int.ofNat_nonneg a) (Int.ofNat_nonneg b)]
  rfl

theorem shiftRight_one_natCast (a : Nat) : ((a : Int) >>> (1 : Nat)) = ((a / 2 : Nat) : Int) := by
  have := Int.shiftRight_eq_div_pow (a : Int) 1
  rw [this]
  norm_num

/-- One step of square-and-multiply keeps the value `R * B ^ E` modulo `M`. -/
theorem sqmul_step (R B E M : Nat) :
    (if E % 2 = 1 then R * B % M else R) * (B * B % M) ^ (E / 2) % M = R * B ^ E % M := by
  have hE : B ^ E = (B * B) ^ (E / 2) * B ^ (E % 2) := by
    conv_lhs => rw [← Nat.div_add_mod E 2]
    rw [pow_add, pow_mul, pow_two]
  have hpow : (B * B % M) ^ (E / 2) % M = (B * B) ^ (E / 2) % M := by
    rw [← Nat.pow_mod]
  rcases Nat.mod_two_eq_zero_or_one E with h | h
  · rw [if_neg (by omega), hE, h, pow_zero, mul_one, Nat.mul_mod, hpow, ← Nat.mul_mod]
  · rw [if_pos h, hE, h, pow_one, Nat.mul_mod, Nat.mod_mod, hpow, ← Nat.mul_mod]
    congr 1
    ring

theorem modExpLoop_exact (M : Nat) (hM1 : 1 ≤ M) (hM : M ≤ 3037000500) :
    ∀ (fuel R B E : Nat), R < M → B < M → E < 2 ^ fuel →
      modExpLoop (fuel + 1) (R : Int) (B : Int) (E : Int) (M : Int)
        = some ((R * B ^ E % M : Nat) : Int) := by
  intro fuel
  induction fuel with
  | zero =>
    intro R B E hR _ hE
    have hE0 : E = 0 := by omega
    subst hE0
    simp [modExpLoop, Nat.mod_eq_of_lt hR]
  | succ fuel ih =>
    intro R B E hR hB hE
    rw [modExpLoop]
    by_cases hE0 : E = 0
    · subst hE0
      simp [Nat.mod_eq_of_lt hR]
    · have hpos : (E : Int) > 0 := by omega
      rw [if_pos hpos]
      have hRB : R * B < 2 ^ 63 := by
        have : R * B ≤ 3037000499 * 3037000499 := Nat.mul_le_mul (by omega) (by omega)
        omega
      have hBB : B * B < 2 ^ 63 := by
        have : B * B ≤ 3037000499 * 3037000499 := Nat.mul_le_mul (by omega) (by omega)
        omega
      have e1 : Int.tmod (wrap64 ((R : Int) * (B : Int))) (M : Int) = ((R * B % M : Nat) : Int) := by
        rw [← Nat.cast_mul, wrap64_natCast hRB, tmod_natCast]
      have e2 : Int.tmod (wrap64 ((B : Int) * (B : Int))) (M : Int) = ((B * B % M : Nat) : Int) := by
        rw [← Nat.cast_mul, wrap64_natCast hBB, tmod_natCast]
      have e3 : (Int.tmod (E : Int) 2 = 1) ↔ (E % 2 = 1) := by
        have := tmod_natCast E 2
        simp only [Nat.cast_ofNat] at this
        rw [this]
        omega
      have e4 : (if Int.tmod (E : Int) 2 = 1 then Int.tmod (wrap64 ((R : Int) * (B : Int))) (M : Int)
          else (R : Int)) = ((if E % 2 = 1 then R * B % M else R : Nat) : Int) := by
        by_cases h : E % 2 = 1
        · rw [if_pos (e3.2 h), if_pos h, e1]
        · rw [if_neg (fun h' => h (e3.1 h')), if_neg h]
      rw [e4, e2, shiftRight_one_natCast]
      have hM0 : 0 < M := hM1
      rw [ih _ _ _ (by split <;> [exact Nat.mod_lt _ hM0; exact hR]) (Nat.mod_lt _ hM0)
        (by omega), sqmul_step]

theorem modularExponentiation_exact (a e m : Nat) (hm : 2 ≤ m) (hm2 : m ≤ 3037000500)
    (he : e < 2 ^ 63) :
    modularExponentiation (a : Int) (e : Int) (m : Int) = some ((a ^ e % m : Nat) : Int) := by
  unfold modularExponentiation
  have hm0 : (m : Int) ≠ 0 := by omega
  rw [if_neg hm0, tmod_natCast]
  have h := modExpLoop_exact m (by omega) hm2 63 1 (a % m) e (by omega)
    (Nat.mod_lt _ (by omega)) he
  simp only [Nat.cast_one] at h
  rw [h, one_mul, ← Nat.pow_mod]

/-- The loop of `modularExponentiation` ends within `fuel + 1` tests of its condition
when the exponent is below `2 ^ fuel`. -/
theorem modExpLoop_terminates :
    ∀ (fuel : Nat) (result base exp mod : Int), exp < 2 ^ fuel →
      ∃ v, modExpLoop (fuel + 1) result base exp mod = some v := by
  intro fuel
  induction fuel with
  | zero =>
    intro result base exp mod h
    refine ⟨result, ?_⟩
    rw [modExpLoop, if_neg (by omega)]
  | succ fuel ih =>
    intro result base exp mod h
    rw [modExpLoop]
    by_cases hpos : exp > 0
    · rw [if_pos hpos]
      apply ih
      rw [Int.shiftRight_eq_div_pow]
      have h2 : (2 : Int) ^ (fuel + 1) = 2 * 2 ^ fuel := by ring
      have h3 : (((2 : Nat) ^ (1 : Nat) : Nat) : Int) = 2 := by norm_num
      rw [h3]
      omega
    · rw [if_neg hpos]
      exact ⟨result, rfl⟩

theorem decomposeLoop_spec :
    ∀ (fuel D : Nat) (r0 : Int), 0 < D → D < 2 ^ fuel →
      ∃ d v : Nat, decomposeLoop (fuel + 1) (D : Int) r0 = some ((d : Int), r0 + (v : Int)) ∧
        d % 2 = 1 ∧ d * 2 ^ v = D ∧ v ≤ fuel := by
  intro fuel
  induction fuel with
  | zero =>
    intro D r0 h0 h1
    omega
  | succ fuel ih =>
    intro D r0 h0 h1
    rw [decomposeLoop]
    have e : Int.tmod (D : Int) 2 = ((D % 2 : Nat) : Int) := tmod_natCast D 2
    have e2 : Int.tdiv (D : Int) 2 = ((D / 2 : Nat) : Int) := tdiv_natCast D 2
    by_cases hpar : D % 2 = 0
    · rw [if_pos (by rw [e]; omega), e2]
      have h2 : (2 : Nat) ^ (fuel + 1) = 2 * 2 ^ fuel := by ring
      obtain ⟨d, v, hl, hd, hv, hle⟩ := ih (D / 2) (r0 + 1) (by omega) (by omega)
      refine ⟨d, v + 1, ?_, hd, ?_, by omega⟩
      · rw [hl]
        push_cast
        congr 2
        ring
      · rw [pow_succ, ← mul_assoc, hv]
        omega
    · rw [if_neg (by rw [e]; omega)]
      refine ⟨D, 0, by simp, by omega, by simp, by omega⟩

theorem natBases_cast : natBases.map (fun a : Nat => (a : Int)) = bases := by
  simp [natBases, bases]

/-- The squaring loop reports `composite = false` exactly when one of the squares it
computes equals `n - 1`. -/
theorem squareLoop_spec (n r : Nat) (hn : 2 ≤ n) (hn2 : n ≤ 3037000500) :
    ∀ (fuel i x : Nat), r ≤ fuel + i + 1 → x < n →
      ∃ b, squareLoop (fuel + 1) (i : Int) (r : Int) (x : Int) (n : Int) = some b ∧
        (b = false ↔ ∃ j, 1 ≤ j ∧ j + i < r ∧ x ^ 2 ^ j % n = n - 1) := by
  intro fuel
  induction fuel with
  | zero =>
    intro i x hf hx
    rw [squareLoop, if_neg (by omega)]
    refine ⟨true, rfl, ?_⟩
    simp only [Bool.true_eq_false, false_iff, not_exists]
    intro j
    omega
  | succ fuel ih =>
    intro i x hf hx
    rw [squareLoop]
    by_cases hi : i + 1 < r
    · rw [if_pos (by omega)]
      have hme := modularExponentiation_exact x 2 n hn hn2 (by norm_num)
      simp only [Nat.cast_ofNat] at hme
      rw [hme]
      simp only
      by_cases hy : x ^ 2 % n = n - 1
      · rw [if_pos (by omega)]
        refine ⟨false, rfl, ?_⟩
        simp only [true_iff]
        exact ⟨1, le_refl 1, by omega, by simpa using hy⟩
      · rw [if_neg (by omega)]
        obtain ⟨b, hb, hiff⟩ := ih (i + 1) (x ^ 2 % n) (by omega) (Nat.mod_lt _ (by omega))
        refine ⟨b, by simpa using hb, ?_⟩
        rw [hiff]
        have key : ∀ j, (x ^ 2 % n) ^ 2 ^ j % n = x ^ 2 ^ (j + 1) % n := by
          intro j
          rw [← Nat.pow_mod, ← pow_mul, pow_succ, mul_comm]
        constructor
        · rintro ⟨j, hj1, hj2, hj3⟩
          exact ⟨j + 1, by omega, by omega, by rw [← key]; exact hj3⟩
        · rintro ⟨j, hj1, hj2, hj3⟩
          have hj : j ≠ 1 := by
            rintro rfl
            exact hy (by simpa using hj3)
          obtain ⟨k, rfl⟩ : ∃ k, j = k + 1 := ⟨j - 1, by omega⟩
          exact ⟨k, by omega, by omega, by rw [key]; exact hj3⟩
    · rw [if_neg (by omega)]
      refine ⟨true, rfl, ?_⟩
      simp only [Bool.true_eq_false, false_iff, not_exists]
      intro j
      omega

/-- The loop over the witness table returns `true` exactly when every base of the table
that is at most `n - 2` passes the strong-probable-prime test. -/
theorem witnessLoop_spec (n d r : Nat) (hn : 3 ≤ n) (hn2 : n ≤ 3037000500)
    (hd : d < 2 ^ 63) (hr1 : 1 ≤ r) (hr : r ≤ 64) :
    ∀ bs : List Nat,
      ∃ b, witnessLoop (d : Int) (r : Int) (n : Int) (bs.map (fun a : Nat => (a : Int))) = some b ∧
        (b = true ↔ ∀ a ∈ bs, a ≤ n - 2 → StrongProbablePrime a d r n) := by
  intro bs
  induction bs with
  | nil => exact ⟨true, rfl, by simp⟩
  | cons a rest ih =>
    obtain ⟨b, hb, hiff⟩ := ih
    rw [List.map_cons, witnessLoop]
    by_cases ha : a ≤ n - 2
    · rw [if_neg (by omega), modularExponentiation_exact a d n (by omega) hn2 hd]
      simp only
      have hx : a ^ d % n < n := Nat.mod_lt _ (by omega)
      by_cases h1 : a ^ d % n = 1 ∨ a ^ d % n = n - 1
      · have hs : StrongProbablePrime a d r n := by
          rcases h1 with h1 | h1
          · exact Or.inl h1
          · exact Or.inr ⟨0, by omega, by simpa using h1⟩
        rw [if_pos (by omega)]
        refine ⟨b, hb, ?_⟩
        rw [hiff]
        simp only [List.mem_cons, forall_eq_or_imp]
        exact ⟨fun h => ⟨fun _ => hs, h⟩, fun h => h.2⟩
      · rw [if_neg (by omega)]
        obtain ⟨c, hc, hciff⟩ := squareLoop_spec n r (by omega) hn2 63 0 (a ^ d % n) (by omega) hx
        simp only [Nat.cast_zero] at hc
        rw [hc]
        have key : ∀ j, (a ^ d % n) ^ 2 ^ j % n = a ^ (d * 2 ^ j) % n := by
          intro j
          rw [← Nat.pow_mod, ← pow_mul]
        cases c with
        | true =>
          refine ⟨false, rfl, ?_⟩
          simp only [Bool.false_eq_true, false_iff, List.mem_cons, forall_eq_or_imp, not_and]
          intro hs
          exfalso
          rcases hs ha with hs | ⟨s, hs1, hs2⟩
          · exact h1 (Or.inl hs)
          · rcases Nat.eq_zero_or_pos s with rfl | hpos
            · exact h1 (Or.inr (by simpa using hs2))
            · have : (true = false) := hciff.2 ⟨s, hpos, by omega, by rw [key]; exact hs2⟩
              exact Bool.noConfusion this
        | false =>
          obtain ⟨j, hj1, hj2, hj3⟩ := hciff.1 rfl
          have hs : StrongProbablePrime a d r n :=
            Or.inr ⟨j, by omega, by rw [← key]; exact hj3⟩
          refine ⟨b, hb, ?_⟩
          rw [hiff]
          simp only [List.mem_cons, forall_eq_or_imp]
          exact ⟨fun h => ⟨fun _ => hs, h⟩, fun h => h.2⟩
    · rw [if_pos (by omega)]
      refine ⟨b, hb, ?_⟩
      rw [hiff]
      simp only [List.mem_cons, forall_eq_or_imp]
      exact ⟨fun h => ⟨fun h' => absurd h' ha, h⟩, fun h => h.2⟩

/-- The decomposition `m = d * 2 ^ r` with `d` odd is unique. -/
theorem odd_decomposition_unique {d r d2 r2 : Nat} (hd : d % 2 = 1) (hd2 : d2 % 2 = 1)
    (h : d * 2 ^ r = d2 * 2 ^ r2) : d = d2 ∧ r = r2 := by
  have aux : ∀ {d r d2 r2 : Nat}, d % 2 = 1 → d2 % 2 = 1 → r ≤ r2 →
      d * 2 ^ r = d2 * 2 ^ r2 → d = d2 ∧ r = r2 := by
    intro d r d2 r2 hd hd2 hle h
    obtain ⟨k, rfl⟩ : ∃ k, r2 = r + k := ⟨r2 - r, by omega⟩
    have h2 : d = d2 * 2 ^ k := by
      have hpos : 0 < 2 ^ r := by positivity
      have h3 : d * 2 ^ r = d2 * 2 ^ k * 2 ^ r := by rw [h, pow_add]; ring
      exact Nat.eq_of_mul_eq_mul_right hpos h3
    rcases Nat.eq_zero_or_pos k with rfl | hk
    · simp at h2
      exact ⟨h2, by simp⟩
    · exfalso
      obtain ⟨j, rfl⟩ : ∃ j, k = j + 1 := ⟨k - 1, by omega⟩
      rw [pow_succ, ← mul_assoc] at h2
      omega
  rcases Nat.le_total r r2 with hle | hle
  · exact aux hd hd2 hle h
  · obtain ⟨h1, h2⟩ := aux hd2 hd hle h.symm
    exact ⟨h1.symm, h2.symm⟩

/-- On an odd `n` in `[5, 3037000500]` the function `isPrime` returns the outcome of the
strong-probable-prime tests to the bases of the table. -/
theorem isPrime_odd_spec (n : Nat) (hn : 5 ≤ n) (hodd : n % 2 = 1) (hn2 : n ≤ 3037000500) :
    ∃ d r : Nat, ∃ b : Bool, d % 2 = 1 ∧ 1 ≤ r ∧ d * 2 ^ r = n - 1 ∧
      decomposeLoop 64 ((n : Int) - 1) 0 = some ((d : Int), (r : Int)) ∧
      isPrime (n : Int) = some b ∧
      (b = true ↔ ∀ a ∈ natBases, a ≤ n - 2 → StrongProbablePrime a d r n) := by
  have hcast : (n : Int) - 1 = ((n - 1 : Nat) : Int) := by omega
  obtain ⟨d, v, hdec, hd, hv, hle⟩ := decomposeLoop_spec 63 (n - 1) 0 (by omega) (by omega)
  rw [zero_add] at hdec
  have hv1 : 1 ≤ v := by
    rcases Nat.eq_zero_or_pos v with rfl | h
    · simp at hv
      omega
    · exact h
  have hdlt : d < 2 ^ 63 := by
    have : d ≤ d * 2 ^ v := Nat.le_mul_of_pos_right d (by positivity)
    omega
  obtain ⟨b, hb, hiff⟩ := witnessLoop_spec n d v (by omega) hn2 hdlt hv1 (by omega) natBases
  rw [natBases_cast] at hb
  refine ⟨d, v, b, hd, hv1, hv, by rw [hcast]; exact hdec, ?_, hiff⟩
  unfold isPrime
  rw [if_neg (by omega), if_neg (by omega)]
  have e : Int.tmod (n : Int) 2 = ((n % 2 : Nat) : Int) := tmod_natCast n 2
  rw [if_neg (by rw [e]; omega), hcast, hdec]
  exact hb

/-- In `ZMod p`, `p` prime, an element whose `2 ^ r`-th power is `1` is `1`, or one of its
`2 ^ s`-th powers, `s < r`, is `-1`. -/
theorem pow_two_pow_eq_one_cases {p : Nat} [Fact p.Prime] :
    ∀ (r : Nat) (y : ZMod p), y ^ 2 ^ r = 1 → y = 1 ∨ ∃ s, s < r ∧ y ^ 2 ^ s = -1 := by
  intro r
  induction r with
  | zero =>
    intro y h
    left
    simpa using h
  | succ r ih =>
    intro y h
    have h2 : (y ^ 2 ^ r) ^ 2 = 1 := by rw [← pow_mul, ← pow_succ]; exact h
    rcases sq_eq_one_iff.1 h2 with h3 | h3
    · rcases ih y h3 with h4 | ⟨s, hs, h4⟩
      · exact Or.inl h4
      · exact Or.inr ⟨s, by omega, h4⟩
    · exact Or.inr ⟨r, by omega, h3⟩

theorem natCast_pred_eq_neg_one (n : Nat) (hn : 1 ≤ n) : ((n - 1 : Nat) : ZMod n) = -1 := by
  have h : ((n - 1 : Nat) : ZMod n) + 1 = 0 := by
    have : ((n - 1 + 1 : Nat) : ZMod n) = 0 := by
      rw [Nat.sub_add_cancel hn]
      exact ZMod.natCast_self n
    simpa using this
  exact eq_neg_of_add_eq_zero_left h

/-- Miller-Rabin, the sound direction: a prime passes the strong-probable-prime test to
every base `a` with `1 ≤ a < n`. -/
theorem prime_strongProbablePrime {n a d r : Nat} (hp : n.Prime) (ha1 : 1 ≤ a) (ha : a < n)
    (hdr : d * 2 ^ r = n - 1) : StrongProbablePrime a d r n := by
  haveI : Fact n.Prime := ⟨hp⟩
  have hn2 : 2 ≤ n := hp.two_le
  have ha0 : (a : ZMod n) ≠ 0 := by
    intro h
    have := (ZMod.natCast_zmod_eq_zero_iff_dvd a n).1 h
    have := Nat.le_of_dvd (by omega) this
    omega
  have hfermat : (a : ZMod n) ^ (n - 1) = 1 := ZMod.pow_card_sub_one_eq_one ha0
  have hy : ((a : ZMod n) ^ d) ^ 2 ^ r = 1 := by rw [← pow_mul, hdr]; exact hfermat
  have h1 : (1 : Nat) % n = 1 := Nat.mod_eq_of_lt (by omega)
  rcases pow_two_pow_eq_one_cases r _ hy with h | ⟨s, hs, h⟩
  · left
    have h2 : ((a ^ d : Nat) : ZMod n) = ((1 : Nat) : ZMod n) := by
      push_cast
      exact h
    have := (ZMod.natCast_eq_natCast_iff' _ _ _).1 h2
    rw [this, h1]
  · right
    refine ⟨s, hs, ?_⟩
    have h2 : ((a ^ (d * 2 ^ s) : Nat) : ZMod n) = ((n - 1 : Nat) : ZMod n) := by
      rw [natCast_pred_eq_neg_one n (by omega)]
      push_cast
      rw [pow_mul]
      exact h
    have := (ZMod.natCast_eq_natCast_iff' _ _ _).1 h2
    rw [this]
    exact Nat.mod_eq_of_lt (by omega)

/-- A strong probable prime to the base `a` is a Fermat probable prime to it. -/
theorem StrongProbablePrime.fermat {a d r n : Nat} (h : StrongProbablePrime a d r n)
    (hn : 2 ≤ n) (hdr : d * 2 ^ r = n - 1) : a ^ (n - 1) % n = 1 := by
  have h1 : (1 : Nat) % n = 1 := Nat.mod_eq_of_lt (by omega)
  rcases h with h | ⟨s, hs, h⟩
  · rw [← hdr, pow_mul, Nat.pow_mod, h, one_pow, h1]
  · obtain ⟨k, rfl⟩ : ∃ k, r = s + 1 + k := ⟨r - (s + 1), by omega⟩
    have e : d * 2 ^ (s + 1 + k) = d * 2 ^ s * (2 * 2 ^ k) := by ring
    rw [← hdr, e, pow_mul, Nat.pow_mod, h, pow_mul, Nat.pow_mod ((n - 1) ^ 2)]
    have hsq : (n - 1) ^ 2 % n = 1 := by
      obtain ⟨m, rfl⟩ : ∃ m, n = m + 1 := ⟨n - 1, by omega⟩
      have : (m + 1 - 1) ^ 2 = 1 + (m + 1) * (m - 1) := by
        obtain ⟨j, rfl⟩ : ∃ j, m = j + 1 := ⟨m - 1, by omega⟩
        simp
        ring
      rw [this, Nat.add_mul_mod_self_left]
      exact Nat.mod_eq_of_lt (by omega)
    rw [hsq, one_pow, h1]

theorem mem_natBases_two_le {a : Nat} (h : a ∈ natBases) : 2 ≤ a := by
  simp only [natBases, List.mem_cons, List.mem_singleton, List.mem_nil_iff, or_false] at h
  omega

/-- No false negative without overflow: on a prime `n ≤ 3037000500` the function returns
`true`. -/
theorem isPrime_of_prime (n : Nat) (hp : n.Prime) (hn2 : n ≤ 3037000500) :
    isPrime (n : Int) = some true := by
  have h2 : 2 ≤ n := hp.two_le
  by_cases h3 : n ≤ 3
  · unfold isPrime
    rw [if_neg (by omega), if_pos (by omega)]
  · have hodd : n % 2 = 1 := by
      rcases hp.eq_two_or_odd with h | h
      · omega
      · exact h
    have h5 : 5 ≤ n := by omega
    obtain ⟨d, r, b, _, _, hdr, _, hb, hiff⟩ := isPrime_odd_spec n h5 hodd hn2
    have : b = true := by
      rw [hiff]
      intro a ha hle
      have := mem_natBases_two_le ha
      exact prime_strongProbablePrime hp (by omega) (by omega) hdr
    rw [hb, this]

theorem modularExponentiation_total (base exp mod : Int) (hmod : mod ≠ 0) (hexp : exp < 2 ^ 63) :
    ∃ v, modularExponentiation base exp mod = some v := by
  unfold modularExponentiation
  rw [if_neg hmod]
  exact modExpLoop_terminates 63 _ _ _ _ hexp

theorem squareLoop_total (n r : Int) (hn : n ≠ 0) :
    ∀ (fuel : Nat) (i x : Int), r ≤ fuel + i + 1 →
      ∃ b, squareLoop (fuel + 1) i r x n = some b := by
  intro fuel
  induction fuel with
  | zero =>
    intro i x h
    rw [squareLoop, if_neg (by push_cast at h; omega)]
    exact ⟨true, rfl⟩
  | succ fuel ih =>
    intro i x h
    rw [squareLoop]
    by_cases hi : i < r - 1
    · rw [if_pos hi]
      obtain ⟨y, hy⟩ := modularExponentiation_total x 2 n hn (by norm_num)
      rw [hy]
      simp only
      by_cases hyn : y = n - 1
      · rw [if_pos hyn]
        exact ⟨false, rfl⟩
      · rw [if_neg hyn]
        exact ih (i + 1) y (by push_cast at h ⊢; omega)
    · rw [if_neg hi]
      exact ⟨true, rfl⟩

theorem witnessLoop_total (d r n : Int) (hn : n ≠ 0) (hd : d < 2 ^ 63) (hr : r ≤ 64) :
    ∀ bs : List Int, ∃ b, witnessLoop d r n bs = some b := by
  intro bs
  induction bs with
  | nil => exact ⟨true, rfl⟩
  | cons a rest ih =>
    rw [witnessLoop]
    by_cases ha : a > n - 2
    · rw [if_pos ha]
      exact ih
    · rw [if_neg ha]
      obtain ⟨x, hx⟩ := modularExponentiation_total a d n hn hd
      rw [hx]
      simp only
      by_cases h1 : x = 1 ∨ x = n - 1
      · rw [if_pos h1]
        exact ih
      · rw [if_neg h1]
        obtain ⟨c, hc⟩ := squareLoop_total n r hn 63 0 x (by push_cast; omega)
        rw [hc]
        cases c with
        | true => exact ⟨false, rfl⟩
        | false => exact ih

/-- The function `isPrime` returns on every 64-bit argument. -/
theorem isPrime_total (n : Int) (hn : n < 2 ^ 63) : ∃ b, isPrime n = some b := by
  unfold isPrime
  by_cases h1 : n ≤ 1
  · rw [if_pos h1]
    exact ⟨false, rfl⟩
  rw [if_neg h1]
  by_cases h3 : n ≤ 3
  · rw [if_pos h3]
    exact ⟨true, rfl⟩
  rw [if_neg h3]
  by_cases hpar : Int.tmod n 2 = 0
  · rw [if_pos hpar]
    exact ⟨false, rfl⟩
  rw [if_neg hpar]
  obtain ⟨m, rfl⟩ : ∃ m : Nat, n = (m : Int) := ⟨n.toNat, by omega⟩
  have hcast : (m : Int) - 1 = ((m - 1 : Nat) : Int) := by omega
  obtain ⟨d, v, hdec, _, hv, hle⟩ := decomposeLoop_spec 63 (m - 1) 0 (by omega) (by omega)
  rw [hcast, hdec]
  simp only
  have hdlt : d < 2 ^ 63 := by
    have : d ≤ d * 2 ^ v := Nat.le_mul_of_pos_right d (by positivity)
    omega
  exact witnessLoop_total _ _ _ (by omega) (by exact_mod_cast hdlt) (by omega) bases

theorem wrap64_lt (x : Int) : wrap64 x < 2 ^ 63 := by
  unfold wrap64
  omega

theorem wrap64_ge (x : Int) : -(2 ^ 63) ≤ wrap64 x := by
  unfold wrap64
  omega

/-- The sequential probe loop returns, and returns `true` exactly when every probe from
`n` up to `c - 1` is reported prime. -/
theorem cabooseLoop_spec :
    ∀ (k : Nat) (n c : Int), c - n ≤ k →
      ∃ b, cabooseLoop (k + 1) n c = some b ∧
        (b = true ↔ ∀ j : Int, n ≤ j → j < c → isPrime (probe j c) = some true) := by
  intro k
  induction k with
  | zero =>
    intro n c h
    rw [cabooseLoop, if_neg (by push_cast at h; omega)]
    refine ⟨true, rfl, ?_⟩
    simp only [true_iff]
    intro j h1 h2
    push_cast at h
    omega
  | succ k ih =>
    intro n c h
    rw [cabooseLoop]
    by_cases hn : n < c
    · rw [if_pos hn]
      obtain ⟨b0, hb0⟩ := isPrime_total (probe n c) (wrap64_lt _)
      rw [hb0]
      cases b0 with
      | false =>
        refine ⟨false, rfl, ?_⟩
        simp only [Bool.false_eq_true, false_iff, not_forall]
        refine ⟨n, le_refl n, hn, ?_⟩
        rw [hb0]
        simp
      | true =>
        obtain ⟨b, hb, hiff⟩ := ih (n + 1) c (by push_cast at h ⊢; omega)
        refine ⟨b, hb, ?_⟩
        rw [hiff]
        constructor
        · intro hall j h1 h2
          by_cases hj : j = n
          · rw [hj]
            exact hb0
          · exact hall j (by omega) h2
        · intro hall j h1 h2
          exact hall j (by omega) h2
    · rw [if_neg hn]
      refine ⟨true, rfl, ?_⟩
      simp only [true_iff]
      intro j h1 h2
      omega

theorem isCabooseNumber_spec (c : Int) :
    ∃ b, isCabooseNumber c = some b ∧
      (b = true ↔ ∀ j : Int, 0 ≤ j → j < c → isPrime (probe j c) = some true) := by
  unfold isCabooseNumber
  exact cabooseLoop_spec c.toNat 0 c (by omega)

/-- Below `3037000500` the probe value is computed without overflow. -/
theorem probe_eq (n c : Int) (h0 : 0 ≤ n) (hn : n < c) (hc : c ≤ 3037000499) :
    probe n c = n * n - n + c := by
  unfold probe
  have h1 : n * n ≤ 3037000499 * 3037000499 := by nlinarith
  have h2 : 0 ≤ n * n := by nlinarith
  have h3 : n ≤ n * n := by nlinarith
  have e1 : wrap64 (n * n) = n * n := wrap64_of_range (by omega) (by omega)
  have e2 : wrap64 (n * n - n) = n * n - n := wrap64_of_range (by omega) (by omega)
  rw [e1, e2]
  exact wrap64_of_range (by omega) (by omega)

/-- Whatever the limit, a list returned by the search loop is strictly increasing: with
the fuel `search` gives it, the loop does not return once its counter has wrapped. -/
theorem searchLoop_sorted :
    ∀ (k : Nat) (i limit : Int), 0 ≤ i → limit ≤ 2 ^ 63 - 1 → (k : Int) + i ≤ 2 ^ 63 + 1 →
      ∀ l, searchLoop k i limit = some l → l.Pairwise (· < ·) ∧ ∀ x ∈ l, i ≤ x := by
  intro k
  induction k with
  | zero =>
    intro i limit _ _ _ l h
    rw [searchLoop] at h
    exact Option.noConfusion h
  | succ k ih =>
    intro i limit h0 hl hk l h
    rw [searchLoop] at h
    by_cases hi : i ≤ limit
    · rw [if_pos hi] at h
      obtain ⟨b, hb, _⟩ := isCabooseNumber_spec i
      rw [hb] at h
      simp only at h
      by_cases hmax : i < 2 ^ 63 - 1
      · rw [wrap64_of_range (by omega) (by omega)] at h
        cases hrest : searchLoop k (i + 1) limit with
        | none =>
          rw [hrest] at h
          exact Option.noConfusion h
        | some l2 =>
          rw [hrest] at h
          simp only [Option.some.injEq] at h
          obtain ⟨hs, hge⟩ := ih (i + 1) limit (by omega) hl (by push_cast at hk; omega) l2 hrest
          cases b with
          | true =>
            simp only [if_true] at h
            subst h
            refine ⟨?_, ?_⟩
            · rw [List.pairwise_cons]
              exact ⟨fun y hy => by have := hge y hy; omega, hs⟩
            · intro x hx
              rcases List.mem_cons.1 hx with rfl | hx
              · exact le_refl _
              · have := hge x hx
                omega
          | false =>
            simp only [Bool.false_eq_true, if_false] at h
            subst h
            exact ⟨hs, fun x hx => by have := hge x hx; omega⟩
      · exfalso
        have hie : i = 2 ^ 63 - 1 := by omega
        have hw : wrap64 (i + 1) = -(2 ^ 63) := by
          rw [hie]
          unfold wrap64
          norm_num
        rw [hw] at h
        have hk1 : k ≤ 1 := by push_cast at hk; omega
        have hnone : searchLoop k (-(2 ^ 63)) limit = none := by
          rcases Nat.eq_zero_or_pos k with rfl | hpos
          · rw [searchLoop]
          · have hk' : k = 0 + 1 := by omega
            rw [hk', searchLoop, if_pos (by omega)]
            obtain ⟨b2, hb2, _⟩ := isCabooseNumber_spec (-(2 ^ 63))
            rw [hb2]
            simp only
            rw [searchLoop]
        rw [hnone] at h
        exact Option.noConfusion h
    · rw [if_neg hi] at h
      simp only [Option.some.injEq] at h
      subst h
      exact ⟨List.Pairwise.nil, fun x hx => absurd hx (List.not_mem_nil x)⟩

theorem isPrime_even (n : Int) (h4 : 4 ≤ n) (hpar : n % 2 = 0) : isPrime n = some false := by
  unfold isPrime
  have e : Int.tmod n 2 = 0 := by
    rw [Int.tmod_eq_emod (by omega) (by decide)]
    exact hpar
  rw [if_neg (by omega), if_neg (by omega), if_pos e]

/-- C3 (fails on the code): with `a = 2^32 - 1`, `e = 2` and `m = 2^63 - 1`, all within the
stated ranges, the product `base * base` exceeds `2^63 - 1`, wraps, and the value returned,
`-8589934591`, is not congruent to `a ^ e` modulo `m`. -/
theorem modularExponentiation_overflow_counterexample :
    modularExponentiation 4294967295 2 9223372036854775807 = some (-8589934591) ∧
      (2 : Int) ^ 63 - 1 < 4294967295 * 4294967295 ∧
      ¬ ((-8589934591 : Int) ≡ 4294967295 ^ 2 [ZMOD 9223372036854775807]) := by
  refine ⟨by decide, by decide, by decide⟩

set_option maxRecDepth 100000 in
/-- C4 (fails on the code): for `LIMIT = 41` the search loop starts at the candidate `0`,
for which the probe loop is empty, and emits `0, 2, 3, 5, 11, 17, 41`, not
`2, 3, 5, 11, 17, 41`. -/
theorem search_41_emits_zero : search 41 = some [0, 2, 3, 5, 11, 17, 41] := by
  decide

/-- C5 (fails on the code): `isCabooseNumber 0` is `true` (its loop body never runs), so
`0` is emitted: for `LIMIT = 0` and `LIMIT = 1` the emitted sequence is `[0]`, not empty.
The candidate `1` is rejected as the claim says. -/
theorem search_emits_zero_below_two :
    isCabooseNumber 0 = some true ∧ isCabooseNumber 1 = some false ∧
      search 0 = some [0] ∧ search 1 = some [0] := by
  refine ⟨by decide, by decide, by decide, by decide⟩

/-- C6 (fails on the code): the candidate `0` is tested by the loop for every `LIMIT ≥ 0`,
`isCabooseNumber 0` returns `true`, and `0` is not a prime number. -/
theorem isCabooseNumber_zero_not_prime :
    isCabooseNumber 0 = some true ∧ ¬ Nat.Prime (0 : Int).toNat ∧ search 0 = some [0] := by
  refine ⟨by decide, ?_, by decide⟩
  simp [Nat.not_prime_zero]

set_option maxRecDepth 100000 in
/-- C8: `isCabooseNumber`, its probe loop run sequentially, returns `true` on each of
`2, 3, 5, 11, 17, 41`. -/
theorem isCabooseNumber_known :
    isCabooseNumber 2 = some true ∧ isCabooseNumber 3 = some true ∧
      isCabooseNumber 5 = some true ∧ isCabooseNumber 11 = some true ∧
      isCabooseNumber 17 = some true ∧ isCabooseNumber 41 = some true := by
  refine ⟨by decide, by decide, by decide, by decide, by decide, by decide⟩

set_option maxRecDepth 100000 in
/-- C9: `isCabooseNumber` returns `false` on the primes `7, 13, 23, 29`, and `isPrime`
returns `false` on the cited probe values `f_7(2) = 9`, `f_13(4) = 25`, `f_23(2) = 25` and
`f_29(5) = 49`, each a probe of its candidate (its index `n` is below `c`). -/
theorem isCabooseNumber_rejections :
    (isCabooseNumber 7 = some false ∧ probe 2 7 = 9 ∧ isPrime (probe 2 7) = some false) ∧
      (isCabooseNumber 13 = some false ∧ probe 4 13 = 25 ∧
        isPrime (probe 4 13) = some false) ∧
      (isCabooseNumber 23 = some false ∧ probe 2 23 = 25 ∧
        isPrime (probe 2 23) = some false) ∧
      (isCabooseNumber 29 = some false ∧ probe 5 29 = 49 ∧
        isPrime (probe 5 29) = some false) := by
  refine ⟨⟨by decide, by decide, by decide⟩, ⟨by decide, by decide, by decide⟩,
    ⟨by decide, by decide, by decide⟩, ⟨by decide, by decide, by decide⟩⟩

set_option maxRecDepth 100000 in
/-- C10: `isPrime` returns `true` on `2, 3, 5, 7, 1000003, 2147483647` and `false` on
`0, 1, 4, 9, 25, 561, 1729, 2047, 1000004`. -/
theorem isPrime_unit_checks :
    (isPrime 2 = some true ∧ isPrime 3 = some true ∧ isPrime 5 = some true ∧
      isPrime 7 = some true ∧ isPrime 1000003 = some true ∧
      isPrime 2147483647 = some true) ∧
    (isPrime 0 = some false ∧ isPrime 1 = some false ∧ isPrime 4 = some false ∧
      isPrime 9 = some false ∧ isPrime 25 = some false ∧ isPrime 561 = some false ∧
      isPrime 1729 = some false ∧ isPrime 2047 = some false ∧
      isPrime 1000004 = some false) := by
  refine ⟨⟨by decide, by decide, by decide, by decide, by decide, by decide⟩,
    ⟨by decide, by decide, by decide, by decide, by decide, by decide, by decide, by decide,
      by decide⟩⟩

/-! ## Claims C11 to C19 -/

/-- C11 (fails on the code): with exponent `0` the loop body never runs and the initial
`result = 1` is returned unreduced, so `modularExponentiation base 0 1` is `1`, not `0`,
for every base. -/
theorem modularExponentiation_zero_exponent_modulus_one (base : Int) :
    modularExponentiation base 0 1 = some 1 := by
  unfold modularExponentiation
  rw [if_neg (by decide)]
  have : (64 : Nat) = 63 + 1 := rfl
  rw [this, modExpLoop, if_neg (by decide)]

/-- C12: `modularExponentiation` is total under its precondition: for every base, every
64-bit exponent (zero, positive or negative) and every modulus `≥ 1` it returns a value;
a positive exponent strictly decreases under the right shift and stays non-negative. -/
theorem modularExponentiation_returns (base exp mod : Int) (hexp : exp < 2 ^ 63)
    (hmod : 1 ≤ mod) :
    (∃ v, modularExponentiation base exp mod = some v) ∧
      (0 < exp → 0 ≤ exp >>> (1 : Nat) ∧ exp >>> (1 : Nat) < exp) := by
  refine ⟨modularExponentiation_total base exp mod (by omega) hexp, ?_⟩
  intro hpos
  rw [Int.shiftRight_eq_div_pow]
  have h3 : (((2 : Nat) ^ (1 : Nat) : Nat) : Int) = 2 := by norm_num
  rw [h3]
  omega

theorem modularExponentiation_returns_witness :
    (13 : Int) < 2 ^ 63 ∧ (1 : Int) ≤ 5 ∧
      ((∃ v, modularExponentiation 3 13 5 = some v) ∧
        ((0 : Int) < 13 → 0 ≤ (13 : Int) >>> (1 : Nat) ∧ (13 : Int) >>> (1 : Nat) < 13)) :=
  ⟨by decide, by decide, modularExponentiation_returns 3 13 5 (by decide) (by decide)⟩

/-- C13: `isPrime` is deterministic: on every 64-bit `n` it returns exactly one result,
fixed by `n` (the witness table is the constant `bases`). -/
theorem isPrime_deterministic (n : Int) (hn : n < 2 ^ 63) :
    ∃! b : Bool, isPrime n = some b := by
  obtain ⟨b, hb⟩ := isPrime_total n hn
  refine ⟨b, hb, ?_⟩
  intro b2 hb2
  rw [hb] at hb2
  exact (Option.some.inj hb2).symm

theorem isPrime_deterministic_witness :
    (561 : Int) < 2 ^ 63 ∧ ∃! b : Bool, isPrime 561 = some b :=
  ⟨by decide, isPrime_deterministic 561 (by decide)⟩

/-- C14: for `1 ≤ c ≤ 3037000499` the sequential early-exit probe loop computes the
universally quantified predicate: `isCabooseNumber c` is `true` iff `isPrime (n*n - n + c)`
is `true` for every `0 ≤ n < c`, and `false` iff it is `false` for some such `n`. -/
theorem isCabooseNumber_iff_forall (c : Int) (h1 : 1 ≤ c) (h2 : c ≤ 3037000499) :
    (isCabooseNumber c = some true ↔
        ∀ n : Int, 0 ≤ n → n < c → isPrime (n * n - n + c) = some true) ∧
      (isCabooseNumber c = some false ↔
        ∃ n : Int, 0 ≤ n ∧ n < c ∧ isPrime (n * n - n + c) = some false) := by
  obtain ⟨b, hb, hiff⟩ := isCabooseNumber_spec c
  have hall : (∀ j : Int, 0 ≤ j → j < c → isPrime (probe j c) = some true) ↔
      ∀ n : Int, 0 ≤ n → n < c → isPrime (n * n - n + c) = some true := by
    constructor
    · intro h n hn0 hn
      rw [← probe_eq n c hn0 hn h2]
      exact h n hn0 hn
    · intro h n hn0 hn
      rw [probe_eq n c hn0 hn h2]
      exact h n hn0 hn
  rw [hall] at hiff
  constructor
  · rw [hb, ← hiff]
    simp
  · rw [hb]
    constructor
    · intro hf
      have hbf : b = false := by simpa using hf
      have hnot : ¬ ∀ n : Int, 0 ≤ n → n < c → isPrime (n * n - n + c) = some true := by
        rw [← hiff, hbf]
        simp
      push_neg at hnot
      obtain ⟨n, hn0, hn, hne⟩ := hnot
      refine ⟨n, hn0, hn, ?_⟩
      obtain ⟨b2, hb2⟩ := isPrime_total (n * n - n + c) (by nlinarith)
      rw [hb2] at hne ⊢
      cases b2 with
      | true => exact absurd rfl hne
      | false => rfl
    · rintro ⟨n, hn0, hn, hf⟩
      have hbf : b ≠ true := by
        intro hbt
        have := hiff.1 hbt n hn0 hn
        rw [hf] at this
        simp at this
      cases b with
      | true => exact absurd rfl hbf
      | false => rfl

set_option maxRecDepth 100000 in
theorem isCabooseNumber_iff_forall_witness :
    (1 : Int) ≤ 5 ∧ (5 : Int) ≤ 3037000499 ∧
      ((isCabooseNumber 5 = some true ↔
          ∀ n : Int, 0 ≤ n → n < 5 → isPrime (n * n - n + 5) = some true) ∧
        (isCabooseNumber 5 = some false ↔
          ∃ n : Int, 0 ≤ n ∧ n < 5 ∧ isPrime (n * n - n + 5) = some false)) :=
  ⟨by decide, by decide, isCabooseNumber_iff_forall 5 (by decide) (by decide)⟩

theorem mem_bases_iff (a : Int) : a ∈ bases ↔ ∃ b ∈ natBases, (b : Int) = a := by
  rw [← natBases_cast, List.mem_map]

/-- C15: for every odd `n` with `5 ≤ n ≤ 3037000500` and `n - 1 = d * 2 ^ r`, `d` odd,
`isPrime n` returns `true` iff every base `a` of the table with `a ≤ n - 2` has
`a ^ d mod n = 1` or `a ^ (d * 2 ^ s) mod n = n - 1` for some `0 ≤ s ≤ r - 1`; it returns
`false` otherwise. -/
theorem isPrime_iff_strongProbablePrime (n d r : Nat) (hn : 5 ≤ n) (hn2 : n ≤ 3037000500)
    (hodd : n % 2 = 1) (hd : d % 2 = 1) (hdr : d * 2 ^ r = n - 1) :
    (isPrime (n : Int) = some true ↔
        ∀ a ∈ bases, a ≤ (n : Int) - 2 →
          (a.toNat ^ d % n = 1 ∨ ∃ s, s ≤ r - 1 ∧ a.toNat ^ (d * 2 ^ s) % n = n - 1)) ∧
      (isPrime (n : Int) = some true ∨ isPrime (n : Int) = some false) := by
  obtain ⟨d2, r2, b, hd2, hr2, hdr2, _, hb, hiff⟩ := isPrime_odd_spec n hn hodd hn2
  obtain ⟨rfl, rfl⟩ := odd_decomposition_unique hd hd2 (hdr.trans hdr2.symm)
  constructor
  · rw [hb]
    have hbt : (some b = some true) ↔ b = true := by simp
    rw [hbt, hiff]
    constructor
    · intro h a ha hle
      obtain ⟨a2, ha2, rfl⟩ := (mem_bases_iff a).1 ha
      rcases h a2 ha2 (by omega) with h1 | ⟨s, hs, h1⟩
      · exact Or.inl (by simpa using h1)
      · exact Or.inr ⟨s, by omega, by simpa using h1⟩
    · intro h a ha hle
      rcases h (a : Int) ((mem_bases_iff _).2 ⟨a, ha, rfl⟩) (by omega) with h1 | ⟨s, hs, h1⟩
      · exact Or.inl (by simpa using h1)
      · exact Or.inr ⟨s, by omega, by simpa using h1⟩
  · rw [hb]
    cases b with
    | true => exact Or.inl rfl
    | false => exact Or.inr rfl

theorem isPrime_iff_strongProbablePrime_witness :
    5 ≤ 13 ∧ 13 ≤ 3037000500 ∧ 13 % 2 = 1 ∧ 3 % 2 = 1 ∧ 3 * 2 ^ 2 = 13 - 1 ∧
      ((isPrime ((13 : Nat) : Int) = some true ↔
          ∀ a ∈ bases, a ≤ ((13 : Nat) : Int) - 2 →
            (a.toNat ^ 3 % 13 = 1 ∨ ∃ s, s ≤ 2 - 1 ∧ a.toNat ^ (3 * 2 ^ s) % 13 = 13 - 1)) ∧
        (isPrime ((13 : Nat) : Int) = some true ∨ isPrime ((13 : Nat) : Int) = some false)) :=
  ⟨by decide, by decide, by decide, by decide, by decide,
    isPrime_iff_strongProbablePrime 13 3 2 (by decide) (by decide) (by decide) (by decide)
      (by decide)⟩

/-- C16: `isPrime` has no false negative where its arithmetic cannot overflow: it
returns `true` on every prime `n ≤ 3037000500`, the primes of the witness table
included. -/
theorem isPrime_true_of_prime (n : Nat) (hp : n.Prime) (hn : n ≤ 3037000500) :
    isPrime (n : Int) = some true :=
  isPrime_of_prime n hp hn

theorem isPrime_true_of_prime_witness :
    Nat.Prime 23 ∧ 23 ≤ 3037000500 ∧ isPrime ((23 : Nat) : Int) = some true :=
  ⟨by norm_num, by decide, isPrime_true_of_prime 23 (by norm_num) (by decide)⟩

/-- C18: for every odd `n` with `5 ≤ n ≤ 2^63 - 1` the decomposition loop, started at
`d = n - 1`, `r = 0`, ends with `d` odd, `r ≥ 1` and `d * 2 ^ r = n - 1`. -/
theorem decomposeLoop_correct (n : Int) (h5 : 5 ≤ n) (hmax : n ≤ 2 ^ 63 - 1)
    (hodd : n % 2 = 1) :
    ∃ d r : Int, decomposeLoop 64 (n - 1) 0 = some (d, r) ∧ d % 2 = 1 ∧ 1 ≤ r ∧
      d * 2 ^ r.toNat = n - 1 := by
  obtain ⟨m, rfl⟩ : ∃ m : Nat, n = (m : Int) := ⟨n.toNat, by omega⟩
  have hcast : (m : Int) - 1 = ((m - 1 : Nat) : Int) := by omega
  obtain ⟨d, v, hdec, hd, hv, hle⟩ := decomposeLoop_spec 63 (m - 1) 0 (by omega) (by omega)
  rw [zero_add] at hdec
  have hv1 : 1 ≤ v := by
    rcases Nat.eq_zero_or_pos v with rfl | h
    · simp at hv
      omega
    · exact h
  refine ⟨(d : Int), (v : Int), by rw [hcast]; exact hdec, by omega, by omega, ?_⟩
  rw [hcast, ← hv]
  simp

theorem decomposeLoop_correct_witness :
    (5 : Int) ≤ 13 ∧ (13 : Int) ≤ 2 ^ 63 - 1 ∧ (13 : Int) % 2 = 1 ∧
      ∃ d r : Int, decomposeLoop 64 (13 - 1) 0 = some (d, r) ∧ d % 2 = 1 ∧ 1 ≤ r ∧
        d * 2 ^ r.toNat = 13 - 1 :=
  ⟨by decide, by decide, by decide, decomposeLoop_correct 13 (by decide) (by decide) (by decide)⟩

/-- C19: the shortcuts of `isPrime`: it returns `false` on every `n ≤ 1` (every negative
`n` included), `true` on `2` and on `3`, and `false` on every even `n ≥ 4`. -/
theorem isPrime_shortcuts :
    (∀ n : Int, n ≤ 1 → isPrime n = some false) ∧ isPrime 2 = some true ∧
      isPrime 3 = some true ∧ (∀ n : Int, 4 ≤ n → n % 2 = 0 → isPrime n = some false) := by
  refine ⟨?_, by decide, by decide, ?_⟩
  · intro n h
    unfold isPrime
    rw [if_pos h]
  · intro n h4 hpar
    exact isPrime_even n h4 hpar

theorem isPrime_shortcuts_witness :
    isPrime (-9223372036854775808) = some false ∧ isPrime 9223372036854775806 = some false :=
  ⟨isPrime_shortcuts.1 _ (by decide), isPrime_shortcuts.2.2.2 _ (by decide) (by decide)⟩

/-- Without overflow every product the loop forms lies in `[0, (M - 1) ^ 2]`. -/
theorem modExpProducts_bound (M : Nat) (hM1 : 1 ≤ M) (hM : M ≤ 3037000500) :
    ∀ (fuel R B E : Nat), R < M → B < M →
      ∀ p ∈ modExpProducts fuel (R : Int) (B : Int) (E : Int) (M : Int),
        0 ≤ p ∧ p ≤ ((M : Int) - 1) ^ 2 := by
  intro fuel
  induction fuel with
  | zero =>
    intro R B E _ _ p hp
    rw [modExpProducts] at hp
    exact absurd hp (List.not_mem_nil p)
  | succ fuel ih =>
    intro R B E hR hB p hp
    rw [modExpProducts] at hp
    by_cases hpos : (E : Int) > 0
    · rw [if_pos hpos] at hp
      have hM0 : 0 < M := hM1
      have hbound : ∀ x y : Nat, x < M → y < M →
          (0 : Int) ≤ (x : Int) * (y : Int) ∧ (x : Int) * (y : Int) ≤ ((M : Int) - 1) ^ 2 := by
        intro x y hx hy
        have h1 : (x : Int) ≤ (M : Int) - 1 := by omega
        have h2 : (y : Int) ≤ (M : Int) - 1 := by omega
        have h3 : (0 : Int) ≤ (x : Int) := by omega
        have h4 : (0 : Int) ≤ (y : Int) := by omega
        constructor
        · positivity
        · nlinarith
      have hRB : R * B < 2 ^ 63 := by
        have : R * B ≤ 3037000499 * 3037000499 := Nat.mul_le_mul (by omega) (by omega)
        omega
      have hBB : B * B < 2 ^ 63 := by
        have : B * B ≤ 3037000499 * 3037000499 := Nat.mul_le_mul (by omega) (by omega)
        omega
      have e1 : Int.tmod (wrap64 ((R : Int) * (B : Int))) (M : Int) = ((R * B % M : Nat) : Int) := by
        rw [← Nat.cast_mul, wrap64_natCast hRB, tmod_natCast]
      have e2 : Int.tmod (wrap64 ((B : Int) * (B : Int))) (M : Int) = ((B * B % M : Nat) : Int) := by
        rw [← Nat.cast_mul, wrap64_natCast hBB, tmod_natCast]
      have e4 : (if Int.tmod (E : Int) 2 = 1 then Int.tmod (wrap64 ((R : Int) * (B : Int))) (M : Int)
          else (R : Int)) = ((if Int.tmod (E : Int) 2 = 1 then R * B % M else R : Nat) : Int) := by
        split
        · exact e1
        · rfl
      rw [e4, e2, shiftRight_one_natCast] at hp
      rcases List.mem_append.1 hp with hp | hp
      · rcases List.mem_append.1 hp with hp | hp
        · split at hp
          · rw [List.mem_singleton] at hp
            rw [hp]
            exact hbound R B hR hB
          · exact absurd hp (List.not_mem_nil p)
        · rw [List.mem_singleton] at hp
          rw [hp]
          exact hbound B B hB hB
      · exact ih _ _ _ (by split <;> [exact Nat.mod_lt _ hM0; exact hR]) (Nat.mod_lt _ hM0) p hp
    · rw [if_neg hpos] at hp
      exact absurd hp (List.not_mem_nil p)

/-- C17: for `2 ≤ m ≤ 3037000500`, `0 ≤ base ≤ 2^63 - 1` and `0 ≤ exp ≤ 2^63 - 1` every
product formed by `modularExponentiation` lies in `[0, (m - 1) ^ 2]`, which is at most
`2^63 - 1`, and the value returned is `base ^ exp mod m`, a value of `[0, m)`. -/
theorem modularExponentiation_exact_without_overflow (base exp m : Int) (hm : 2 ≤ m)
    (hm2 : m ≤ 3037000500) (hb0 : 0 ≤ base) (hb : base ≤ 2 ^ 63 - 1) (he0 : 0 ≤ exp)
    (he : exp ≤ 2 ^ 63 - 1) :
    (m - 1) ^ 2 ≤ 2 ^ 63 - 1 ∧
      (∀ p ∈ modExpProducts 64 1 (Int.tmod base m) exp m, 0 ≤ p ∧ p ≤ (m - 1) ^ 2) ∧
      ∃ v, modularExponentiation base exp m = some v ∧ v = base ^ exp.toNat % m ∧
        0 ≤ v ∧ v < m := by
  obtain ⟨M, rfl⟩ : ∃ M : Nat, m = (M : Int) := ⟨m.toNat, by omega⟩
  obtain ⟨B, rfl⟩ : ∃ B : Nat, base = (B : Int) := ⟨base.toNat, by omega⟩
  obtain ⟨E, rfl⟩ : ∃ E : Nat, exp = (E : Int) := ⟨exp.toNat, by omega⟩
  have hM2 : 2 ≤ M := by omega
  have hM : M ≤ 3037000500 := by omega
  refine ⟨by nlinarith, ?_, ?_⟩
  · rw [tmod_natCast]
    have := modExpProducts_bound M (by omega) hM 64 1 (B % M) E (by omega)
      (Nat.mod_lt _ (by omega))
    simpa using this
  · refine ⟨_, modularExponentiation_exact B E M hM2 hM (by omega), ?_, by omega, ?_⟩
    · simp
    · have := Nat.mod_lt (B ^ E) (show 0 < M by omega)
      omega

theorem modularExponentiation_exact_without_overflow_witness :
    (2 : Int) ≤ 3037000500 ∧ (3037000500 : Int) ≤ 3037000500 ∧ (0 : Int) ≤ 3037000499 ∧
      (3037000499 : Int) ≤ 2 ^ 63 - 1 ∧ (0 : Int) ≤ 3 ∧ (3 : Int) ≤ 2 ^ 63 - 1 ∧
      ((3037000500 - 1 : Int) ^ 2 ≤ 2 ^ 63 - 1 ∧
        (∀ p ∈ modExpProducts 64 1 (Int.tmod 3037000499 3037000500) 3 3037000500,
          0 ≤ p ∧ p ≤ (3037000500 - 1 : Int) ^ 2) ∧
        ∃ v, modularExponentiation 3037000499 3 3037000500 = some v ∧
          v = (3037000499 : Int) ^ (3 : Int).toNat % 3037000500 ∧ 0 ≤ v ∧ v < 3037000500) :=
  ⟨by decide, by decide, by decide, by decide, by decide, by decide,
    modularExponentiation_exact_without_overflow 3037000499 3 3037000500 (by decide)
      (by decide) (by decide) (by decide) (by decide) (by decide)⟩

/-! ## The certificate checker is sound -/

theorem powModW_eq (a e n : Nat) : powModW a e n = a ^ e % n := by
  have he : e = 65536 * (e / 65536) + (256 * (e / 256 % 256) + e % 256) := by omega
  have hpow : a ^ e = ((a ^ (e / 65536)) ^ 256 * a ^ (e / 256 % 256)) ^ 256 * a ^ (e % 256) := by
    rw [mul_pow, ← pow_mul, ← pow_mul, ← pow_mul, ← pow_add, ← pow_add]
    congr 1
    omega
  show ((a ^ (e / 65536) % n) ^ 256 * a ^ (e / 256 % 256) % n) ^ 256 * a ^ (e % 256) % n
    = a ^ e % n
  rw [hpow]
  have h1 : (a ^ (e / 65536) % n) ^ 256 * a ^ (e / 256 % 256) ≡
      (a ^ (e / 65536)) ^ 256 * a ^ (e / 256 % 256) [MOD n] :=
    ((Nat.mod_modEq _ _).pow 256).mul_right _
  have h2 : (a ^ (e / 65536) % n) ^ 256 * a ^ (e / 256 % 256) % n ≡
      (a ^ (e / 65536)) ^ 256 * a ^ (e / 256 % 256) [MOD n] :=
    (Nat.mod_modEq _ _).trans h1
  exact (h2.pow 256).mul_right _

theorem noDivisorBelow_sound (n : Nat) :
    ∀ k, noDivisorBelow n k = true → ∀ d, 2 ≤ d → d < k → ¬ d ∣ n := by
  intro k
  induction k with
  | zero =>
    intro _ d _ h
    omega
  | succ k ih =>
    intro h d hd hlt
    rw [noDivisorBelow, Bool.and_eq_true, Bool.or_eq_true] at h
    by_cases hdk : d = k
    · subst hdk
      rcases h.1 with h1 | h1
      · have : d ≤ 1 := by simpa [Nat.blt] using h1
        omega
      · intro hdvd
        have h0 : n % d = 0 := Nat.mod_eq_zero_of_dvd hdvd
        have h2 : Nat.beq (Nat.mod n d) 0 = true := by
          show Nat.beq (n % d) 0 = true
          rw [h0]
          rfl
        rw [h2] at h1
        exact Bool.noConfusion h1
    · exact ih h.2 d hd (by omega)

theorem prime_of_noDivisorBelow (n k : Nat) (h2 : 2 ≤ n) (hk : n < k * k)
    (h : noDivisorBelow n k = true) : n.Prime := by
  rw [Nat.prime_def_le_sqrt]
  refine ⟨h2, ?_⟩
  intro m hm hsq
  apply noDivisorBelow_sound n k h m hm
  by_contra hge
  have h1 : k * k ≤ m * m := Nat.mul_le_mul (by omega) (by omega)
  have h3 : m * m ≤ n := Nat.le_sqrt.1 hsq
  omega

theorem beq_eq_true_iff (a b : Nat) : Nat.beq a b = true ↔ a = b :=
  ⟨Nat.eq_of_beq_eq_true, fun h => by rw [h]; exact Nat.beq_refl b⟩

theorem blt_eq_true_iff (a b : Nat) : Nat.blt a b = true ↔ a < b := by
  simp [Nat.blt]
  omega

theorem minusOneBelow_iff (a d n : Nat) :
    ∀ r, minusOneBelow a d n r = true ↔ ∃ s, s < r ∧ a ^ (d * 2 ^ s) % n = n - 1 := by
  intro r
  induction r with
  | zero => simp [minusOneBelow]
  | succ r ih =>
    rw [minusOneBelow, Bool.or_eq_true, ih, beq_eq_true_iff, powModW_eq]
    show (a ^ (d * 2 ^ r) % n = n - 1 ∨ _) ↔ _
    constructor
    · rintro (h | ⟨s, hs, h⟩)
      · exact ⟨r, by omega, h⟩
      · exact ⟨s, by omega, h⟩
    · rintro ⟨s, hs, h⟩
      by_cases hsr : s = r
      · subst hsr
        exact Or.inl h
      · exact Or.inr ⟨s, by omega, h⟩

theorem strongTestB_iff (a d r n : Nat) :
    strongTestB a d r n = true ↔ StrongProbablePrime a d r n := by
  unfold strongTestB StrongProbablePrime
  rw [Bool.or_eq_true, beq_eq_true_iff, powModW_eq, minusOneBelow_iff]

/-- A number rejected by `strongRejects` fails a strong test to one of `2, 3, 5, 7`. -/
theorem strongRejects_sound (n : Nat) (h : strongRejects n = true) :
    ∃ d r, d % 2 = 1 ∧ d * 2 ^ r = n - 1 ∧
      ¬ (StrongProbablePrime 2 d r n ∧ StrongProbablePrime 3 d r n ∧
        StrongProbablePrime 5 d r n ∧ StrongProbablePrime 7 d r n) := by
  unfold strongRejects at h
  generalize oddPart 24 (Nat.sub n 1) 0 = dr at h
  obtain ⟨d, r⟩ := dr
  simp only [Bool.and_eq_true, beq_eq_true_iff, Bool.not_eq_true', Bool.and_eq_false_iff] at h
  obtain ⟨⟨h1, h2⟩, h3⟩ := h
  refine ⟨d, r, h1, h2, ?_⟩
  rintro ⟨s2, s3, s5, s7⟩
  rw [← strongTestB_iff] at s2 s3 s5 s7
  rw [s2, s3, s5, s7] at h3
  simp at h3

theorem rejects_sound (n : Nat) (h : rejects n = true) :
    1 ≤ n ∧ (2 ^ (n - 1) % n ≠ 1 ∨ strongRejects n = true) := by
  unfold rejects at h
  cases n with
  | zero => exact Bool.noConfusion h
  | succ e =>
    simp only [Bool.or_eq_true, Bool.not_eq_true'] at h
    refine ⟨by omega, ?_⟩
    rcases h with h | h
    · left
      intro h1
      have : Nat.beq (powModW 2 e (Nat.succ e)) 1 = true := by
        rw [beq_eq_true_iff, powModW_eq]
        simpa using h1
      rw [this] at h
      exact Bool.noConfusion h
    · exact Or.inr h

/-- On an odd number of `[9, 3037000500]` that the checker rejects, `isPrime` returns
`false`. -/
theorem isPrime_of_rejects (n : Nat) (hn : 9 ≤ n) (hn2 : n ≤ 3037000500) (hodd : n % 2 = 1)
    (h : rejects n = true) : isPrime (n : Int) = some false := by
  obtain ⟨d, r, b, hd, hr, hdr, _, hb, hiff⟩ := isPrime_odd_spec n (by omega) hodd hn2
  rw [hb]
  cases b with
  | false => rfl
  | true =>
    exfalso
    have hall := hiff.1 rfl
    have s2 := hall 2 (by simp [natBases]) (by omega)
    have s3 := hall 3 (by simp [natBases]) (by omega)
    have s5 := hall 5 (by simp [natBases]) (by omega)
    have s7 := hall 7 (by simp [natBases]) (by omega)
    rcases (rejects_sound n h).2 with h1 | h1
    · exact h1 (s2.fermat (by omega) hdr)
    · obtain ⟨d2, r2, hd2, hdr2, hnot⟩ := strongRejects_sound n h1
      obtain ⟨rfl, rfl⟩ := odd_decomposition_unique hd hd2 (hdr.trans hdr2.symm)
      exact hnot ⟨s2, s3, s5, s7⟩

theorem candLoop_sound (p K : Nat) :
    ∀ c, candLoop p K c = true → ∀ j, j < c → p ≤ 1 + j * K →
      rejects (p * (1 + j * K)) = true := by
  intro c
  induction c with
  | zero =>
    intro _ j hj
    omega
  | succ c ih =>
    intro h j hj hp
    rw [candLoop, Bool.and_eq_true, Bool.or_eq_true, blt_eq_true_iff] at h
    by_cases hjc : j = c
    · subst hjc
      rcases h.1 with h1 | h1
      · have h1b : Nat.succ (j * K) < p := h1
        omega
      · have e : p * (1 + j * K) = Nat.mul p (Nat.succ (Nat.mul j K)) := by
          show p * (1 + j * K) = p * (j * K + 1)
          ring
        rw [e]
        exact h1
    · exact ih h.2 j (by omega) hp

theorem natMin_le_left (a b : Nat) : Nat.min a b ≤ a := by
  simp only [Nat.min_def]
  split <;> omega

theorem natMin_le_right (a b : Nat) : Nat.min a b ≤ b := by
  simp only [Nat.min_def]
  split <;> omega

theorem ordStep_le (c1 c2 : Bool) (F G B : Nat) :
    cond c2 (Nat.min G (cond c1 (Nat.min F B) B)) (cond c1 (Nat.min F B) B) ≤ B := by
  have h1 : cond c1 (Nat.min F B) B ≤ B := by
    cases c1
    · exact le_refl _
    · exact natMin_le_right _ _
  cases c2
  · exact h1
  · exact le_trans (natMin_le_right _ _) h1

theorem ordStep_le_left (c2 : Bool) (F G B : Nat) :
    cond c2 (Nat.min G (cond true (Nat.min F B) B)) (cond true (Nat.min F B) B) ≤ F := by
  have h1 : cond true (Nat.min F B) B ≤ F := natMin_le_left _ _
  cases c2
  · exact h1
  · exact le_trans (natMin_le_right _ _) h1

theorem ordStep_le_right (c1 : Bool) (F G B : Nat) :
    cond true (Nat.min G (cond c1 (Nat.min F B) B)) (cond c1 (Nat.min F B) B) ≤ G :=
  natMin_le_left _ _

theorem ordSearch_le (p n : Nat) : ∀ c best, ordSearch p n c best ≤ best := by
  intro c
  induction c with
  | zero =>
    intro best
    rw [ordSearch]
  | succ f ih =>
    intro best
    cases best with
    | zero => rw [ordSearch]
    | succ b =>
      rw [ordSearch]
      cases h0 : Nat.beq (Nat.mod n (Nat.succ f)) 0 with
      | false => exact ih _
      | true => exact le_trans (ih _) (ordStep_le _ _ _ _ _)

theorem ordSearch_min (p n : Nat) :
    ∀ c best g, ordSearch p n c best ≠ 0 →
      (∃ f, 1 ≤ f ∧ f ≤ c ∧ f ∣ n ∧ (g = f ∨ g = n / f)) → 2 ^ g % p = 1 →
      ordSearch p n c best ≤ g := by
  intro c
  induction c with
  | zero =>
    rintro best g _ ⟨f, h1, h2, _⟩ _
    omega
  | succ c ih =>
    rintro best g hne ⟨f, hf1, hf2, hfn, hg⟩ hpow
    cases best with
    | zero =>
      rw [ordSearch] at hne
      exact absurd rfl hne
    | succ b =>
      rw [ordSearch] at hne ⊢
      cases h0 : Nat.beq (Nat.mod n (Nat.succ c)) 0 with
      | false =>
        rw [h0] at hne
        simp only [cond_false] at hne ⊢
        have hfc : f ≠ c + 1 := by
          rintro rfl
          have : Nat.beq (Nat.mod n (Nat.succ c)) 0 = true := by
            rw [beq_eq_true_iff]
            exact Nat.mod_eq_zero_of_dvd hfn
          rw [this] at h0
          exact Bool.noConfusion h0
        exact ih _ g hne ⟨f, hf1, by omega, hfn, hg⟩ hpow
      | true =>
        rw [h0] at hne
        simp only [cond_true] at hne ⊢
        by_cases hfc : f = c + 1
        · subst hfc
          refine le_trans (ordSearch_le p n c _) ?_
          have hpw : ∀ x, 2 ^ x % p = 1 → Nat.beq (powModW 2 x p) 1 = true := by
            intro x hx
            rw [beq_eq_true_iff, powModW_eq]
            exact hx
          rcases hg with rfl | rfl
          · rw [hpw _ hpow]
            exact ordStep_le_left _ _ _ _
          · have e : Nat.div n (Nat.succ c) = n / (c + 1) := rfl
            rw [e, hpw _ hpow]
            exact ordStep_le_right _ _ _ _
        · exact ih _ g hne ⟨f, hf1, by omega, hfn, hg⟩ hpow

/-- For a prime `p`, `2 ^ e % p = 1` exactly when the order of `2` modulo `p` divides `e`. -/
theorem two_pow_mod_eq_one_iff (p : Nat) [Fact p.Prime] (e : Nat) :
    2 ^ e % p = 1 ↔ orderOf (2 : ZMod p) ∣ e := by
  have hp : p.Prime := Fact.out
  have h1 : (1 : Nat) % p = 1 := Nat.mod_eq_of_lt hp.one_lt
  rw [orderOf_dvd_iff_pow_eq_one]
  constructor
  · intro h
    have h2 : ((2 ^ e : Nat) : ZMod p) = ((1 : Nat) : ZMod p) := by
      rw [ZMod.natCast_eq_natCast_iff', h, h1]
    simpa using h2
  · intro h
    have h2 : ((2 ^ e : Nat) : ZMod p) = ((1 : Nat) : ZMod p) := by
      push_cast
      exact h
    rw [ZMod.natCast_eq_natCast_iff', h1] at h2
    exact h2

/-- A prime `p` of `[29, 3161]` accepted by `checkQ`: every odd multiple `p * m ≤ 10 ^ 7`
with `m ≥ p` that is a Fermat pseudoprime to the base `2` modulo `p` is rejected. -/
theorem checkQ_sound (p : Nat) (hp : p.Prime) (h29 : 29 ≤ p) (hmax : p ≤ 3161)
    (h : checkQ p = true) (m : Nat) (hm : p ≤ m) (hn : p * m ≤ 10000000)
    (hodd : (p * m) % 2 = 1) (hf : 2 ^ (p * m - 1) % p = 1) : rejects (p * m) = true := by
  haveI : Fact p.Prime := ⟨hp⟩
  unfold checkQ at h
  generalize hk0 : ordSearch p (Nat.sub p 1) 57 (Nat.sub p 1) = k0 at h
  cases k0 with
  | zero => exact Bool.noConfusion h
  | succ k =>
    simp only [Bool.and_eq_true, beq_eq_true_iff, powModW_eq] at h
    obtain ⟨hk1, h2⟩ := h
    generalize hK0 : Nat.mul (Nat.succ k) (Nat.succ (Nat.mod (Nat.succ k) 2)) = K0 at h2
    cases K0 with
    | zero => exact Bool.noConfusion h2
    | succ K =>
      simp only at h2
      have hK : K + 1 = (k + 1) * ((k + 1) % 2 + 1) := hK0.symm
      have hsub : Nat.sub p 1 = p - 1 := rfl
      rw [hsub] at hk0
      -- the order of 2 modulo p is k + 1
      set o := orderOf (2 : ZMod p) with ho
      have hok : o ∣ k + 1 := (two_pow_mod_eq_one_iff p (k + 1)).1 hk1
      have h2ne : (2 : ZMod p) ≠ 0 := by
        intro h0
        have h3 : ((2 : Nat) : ZMod p) = 0 := by exact_mod_cast h0
        have := (ZMod.natCast_zmod_eq_zero_iff_dvd 2 p).1 h3
        have := Nat.le_of_dvd (by norm_num) this
        omega
      have hfermat : (2 : ZMod p) ^ (p - 1) = 1 := ZMod.pow_card_sub_one_eq_one h2ne
      have hon : o ∣ p - 1 := orderOf_dvd_of_pow_eq_one hfermat
      have hopos : 0 < o := Nat.pos_of_dvd_of_pos hok (by omega)
      have hole : o ≤ p - 1 := Nat.le_of_dvd (by omega) hon
      have hmin : k + 1 ≤ o := by
        have := ordSearch_min p (p - 1) 57 (p - 1) o (by rw [hk0]; omega) ?_
          ((two_pow_mod_eq_one_iff p o).2 (dvd_refl o))
        · rw [hk0] at this
          exact this
        · by_cases ho57 : o ≤ 57
          · exact ⟨o, hopos, ho57, hon, Or.inl rfl⟩
          · refine ⟨(p - 1) / o, ?_, ?_, Nat.div_dvd_of_dvd hon, Or.inr ?_⟩
            · exact Nat.div_pos hole hopos
            · have h58 : 58 ≤ o := by omega
              have : (p - 1) / o ≤ (p - 1) / 58 := Nat.div_le_div_left h58 (by norm_num)
              omega
            · rw [Nat.div_div_self hon (by omega)]
      have hoeq : o = k + 1 := le_antisymm (Nat.le_of_dvd (by omega) hok) hmin
      -- the order divides m - 1
      have hm1 : 1 ≤ m := by omega
      have hdvd1 : o ∣ p * m - 1 := (two_pow_mod_eq_one_iff p _).1 hf
      have hsplit : p * m - 1 = (p - 1) * m + (m - 1) := by
        obtain ⟨p2, rfl⟩ : ∃ p2, p = p2 + 1 := ⟨p - 1, by omega⟩
        obtain ⟨m2, rfl⟩ : ∃ m2, m = m2 + 1 := ⟨m - 1, by omega⟩
        simp only [Nat.add_sub_cancel]
        have : (p2 + 1) * (m2 + 1) = p2 * (m2 + 1) + m2 + 1 := by ring
        omega
      have hdvdm : o ∣ m - 1 := by
        rw [hsplit] at hdvd1
        exact (Nat.dvd_add_right (Dvd.dvd.mul_right hon m)).1 hdvd1
      rw [hoeq] at hdvdm
      have hmodd : m % 2 = 1 := by
        rcases Nat.mod_two_eq_zero_or_one m with h0 | h1
        · exfalso
          rw [Nat.mul_mod, h0] at hodd
          simp at hodd
        · exact h1
      have hKdvd : K + 1 ∣ m - 1 := by
        rw [hK]
        rcases Nat.mod_two_eq_zero_or_one (k + 1) with h0 | h1
        · rw [h0]
          simpa using hdvdm
        · rw [h1]
          have hcop : Nat.Coprime (k + 1) 2 := by
            rw [Nat.coprime_comm, Nat.Prime.coprime_iff_not_dvd Nat.prime_two]
            omega
          exact Nat.Coprime.mul_dvd_of_dvd_of_dvd hcop hdvdm (by omega)
      obtain ⟨j, hj⟩ := hKdvd
      have hmj : m = 1 + j * (K + 1) := by
        rw [mul_comm] at hj
        omega
      have hmle : m ≤ 10000000 / p := (Nat.le_div_iff_mul_le hp.pos).2 (by rw [mul_comm]; exact hn)
      have hjle : j ≤ (10000000 / p - 1) / (K + 1) := by
        rw [Nat.le_div_iff_mul_le (by omega)]
        omega
      have := candLoop_sound p (Nat.succ K) _ h2 j
        (by show j < ((10000000 / p - 1) / (K + 1)) + 1; omega) (by show p ≤ 1 + j * (K + 1); omega)
      rw [hmj]
      exact this

theorem qLoop_sound (lo : Nat) :
    ∀ c, qLoop lo c = true → ∀ i, i < c →
      smallFactor (lo + 2 * i) = true ∨ checkQ (lo + 2 * i) = true := by
  intro c
  induction c with
  | zero =>
    intro _ i hi
    omega
  | succ c ih =>
    intro h i hi
    rw [qLoop] at h
    generalize hq0 : Nat.add lo (Nat.mul 2 c) = q0 at h
    cases q0 with
    | zero => exact Bool.noConfusion h
    | succ q =>
      simp only [Bool.and_eq_true, Bool.or_eq_true] at h
      by_cases hic : i = c
      · subst hic
        have e : lo + 2 * i = Nat.succ q := hq0
        rw [e]
        exact h.1
      · exact ih h.2 i (by omega)

theorem prime_not_dvd_small {p : Nat} (hp : p.Prime) (h : 23 < p) : ¬ p ∣ 111546435 := by
  intro hd
  have e : (111546435 : Nat) = [3, 5, 7, 11, 13, 17, 19, 23].prod := by norm_num
  rw [e, Prime.dvd_prod_iff hp.prime] at hd
  obtain ⟨a, ha, hpa⟩ := hd
  have hle : a ≤ 23 := by
    simp only [List.mem_cons, List.mem_singleton, List.mem_nil_iff, or_false] at ha
    omega
  have hpos : 0 < a := by
    simp only [List.mem_cons, List.mem_singleton, List.mem_nil_iff, or_false] at ha
    omega
  have := Nat.le_of_dvd hpos hpa
  omega

theorem prime_not_dvd_big {p : Nat} (hp : p.Prime) (h : 53 < p) : ¬ p ∣ 146078888479 := by
  intro hd
  have e : (146078888479 : Nat) = [29, 31, 37, 41, 43, 47, 53].prod := by norm_num
  rw [e, Prime.dvd_prod_iff hp.prime] at hd
  obtain ⟨a, ha, hpa⟩ := hd
  have hle : a ≤ 53 := by
    simp only [List.mem_cons, List.mem_singleton, List.mem_nil_iff, or_false] at ha
    omega
  have hpos : 0 < a := by
    simp only [List.mem_cons, List.mem_singleton, List.mem_nil_iff, or_false] at ha
    omega
  have := Nat.le_of_dvd hpos hpa
  omega

theorem smallFactor_sound (q : Nat) (h29 : 29 ≤ q) (h : smallFactor q = true) : ¬ q.Prime := by
  intro hp
  unfold smallFactor at h
  simp only [Bool.or_eq_true, Bool.and_eq_true, blt_eq_true_iff] at h
  have hg : ∀ P : Nat, 1 < Nat.gcd q P → q ∣ P := by
    intro P h1
    have hdq : Nat.gcd q P ∣ q := Nat.gcd_dvd_left q P
    rcases (Nat.dvd_prime hp).1 hdq with h2 | h2
    · omega
    · have := Nat.gcd_dvd_right q P
      rw [h2] at this
      exact this
  rcases h with h | ⟨h1, h2⟩
  · exact prime_not_dvd_small hp (by omega) (hg _ h)
  · exact prime_not_dvd_big hp h2 (hg _ h1)

theorem certificate_29 : qLoop 29 1 = true := by decide!

theorem certificate_31 : qLoop 31 1 = true := by decide!

theorem certificate_33 : qLoop 33 5 = true := by decide!

theorem certificate_43 : qLoop 43 9 = true := by decide!

theorem certificate_61 : qLoop 61 20 = true := by decide!

theorem certificate_101 : qLoop 101 50 = true := by decide!

theorem certificate_201 : qLoop 201 150 = true := by decide!

theorem certificate_501 : qLoop 501 500 = true := by decide!

theorem certificate_1501 : qLoop 1501 831 = true := by decide!

/-- Every prime of `[29, 3161]` is accepted by `checkQ`. -/
theorem checkQ_of_prime (p : Nat) (hp : p.Prime) (h29 : 29 ≤ p) (hmax : p ≤ 3161) :
    checkQ p = true := by
  have hodd : p % 2 = 1 := by
    rcases hp.eq_two_or_odd with h | h
    · omega
    · exact h
  have key : ∀ lo c, qLoop lo c = true → lo % 2 = 1 → lo ≤ p → p < lo + 2 * c →
      checkQ p = true := by
    intro lo c hq hlo h1 h2
    have e : p = lo + 2 * ((p - lo) / 2) := by omega
    rcases qLoop_sound lo c hq ((p - lo) / 2) (by omega) with h | h
    · rw [← e] at h
      exact absurd hp (smallFactor_sound p h29 h)
    · rw [← e] at h
      exact h
  by_cases h1 : p < 31
  · exact key 29 1 certificate_29 (by norm_num) (by omega) (by omega)
  by_cases h2 : p < 33
  · exact key 31 1 certificate_31 (by norm_num) (by omega) (by omega)
  by_cases h3 : p < 43
  · exact key 33 5 certificate_33 (by norm_num) (by omega) (by omega)
  by_cases h4 : p < 61
  · exact key 43 9 certificate_43 (by norm_num) (by omega) (by omega)
  by_cases h5 : p < 101
  · exact key 61 20 certificate_61 (by norm_num) (by omega) (by omega)
  by_cases h6 : p < 201
  · exact key 101 50 certificate_101 (by norm_num) (by omega) (by omega)
  by_cases h7 : p < 501
  · exact key 201 150 certificate_201 (by norm_num) (by omega) (by omega)
  by_cases h8 : p < 1501
  · exact key 501 500 certificate_501 (by norm_num) (by omega) (by omega)
  · exact key 1501 831 certificate_1501 (by norm_num) (by omega) (by omega)

/-- No false positive up to `10 ^ 7`: on an odd composite `n` with `5 ≤ n ≤ 10 ^ 7` the
function `isPrime` returns `false`. -/
theorem isPrime_false_of_composite (n : Nat) (h5 : 5 ≤ n) (hmax : n ≤ 10000000)
    (hodd : n % 2 = 1) (hnp : ¬ n.Prime) : isPrime (n : Int) = some false := by
  obtain ⟨d, r, b, hd, hr, hdr, _, hb, hiff⟩ := isPrime_odd_spec n h5 hodd (by omega)
  rw [hb]
  cases b with
  | false => rfl
  | true =>
    exfalso
    have hall := hiff.1 rfl
    have hp : (Nat.minFac n).Prime := Nat.minFac_prime (by omega)
    have hpd : Nat.minFac n ∣ n := Nat.minFac_dvd n
    have hsq : Nat.minFac n ^ 2 ≤ n := Nat.minFac_sq_le_self (by omega) hnp
    generalize Nat.minFac n = p at hp hpd hsq
    have hp2 : p ≠ 2 := by
      rintro rfl
      have := Nat.mod_eq_zero_of_dvd hpd
      omega
    have hp3 : 3 ≤ p := by
      have := hp.two_le
      omega
    obtain ⟨m, rfl⟩ := hpd
    have hpm : p ≤ m := by
      rw [pow_two] at hsq
      exact Nat.le_of_mul_le_mul_left hsq hp.pos
    have h3p : 3 * p ≤ p * m := by
      have : p * 3 ≤ p * m := Nat.mul_le_mul_left p (by omega)
      omega
    by_cases h29 : p < 29
    · have hmem : p ∈ natBases := by
        unfold natBases
        interval_cases p <;> first | decide | (exfalso; revert hp; norm_num)
      have hf := (hall p hmem (by omega)).fermat (by omega) hdr
      have h1 : p ∣ p ^ (p * m - 1) := dvd_pow_self p (by omega)
      have h2 : p ∣ p ^ (p * m - 1) % (p * m) := (Nat.dvd_mod_iff (Dvd.intro m rfl)).2 h1
      rw [hf] at h2
      have := Nat.le_of_dvd (by norm_num) h2
      omega
    · have hmaxp : p ≤ 3161 := by
        by_contra hgt
        have hodd_p : p % 2 = 1 := by
          rcases hp.eq_two_or_odd with h | h
          · omega
          · exact h
        have h3163 : 3163 ≤ p := by omega
        have : 3163 * 3163 ≤ p * p := Nat.mul_le_mul h3163 h3163
        have : p * p ≤ p * m := Nat.mul_le_mul_left p hpm
        omega
      have hf := (hall 2 (by simp [natBases]) (by omega)).fermat (by omega) hdr
      have hfp : 2 ^ (p * m - 1) % p = 1 := by
        rw [← Nat.mod_mod_of_dvd _ (Dvd.intro m rfl), hf]
        exact Nat.mod_eq_of_lt hp.one_lt
      have hrej := checkQ_sound p hp (by omega) hmaxp (checkQ_of_prime p hp (by omega) hmaxp)
        m hpm hmax hodd hfp
      have := isPrime_of_rejects (p * m) (by omega) (by omega) hodd hrej
      rw [hb] at this
      simp at this

theorem trial_division_iff_prime (n : Nat) (h2 : 2 ≤ n) :
    (∀ d : Nat, 2 ≤ d → d * d ≤ n → ¬ d ∣ n) ↔ n.Prime := by
  rw [Nat.prime_def_le_sqrt]
  constructor
  · intro h
    exact ⟨h2, fun m hm hs => h m hm (Nat.le_sqrt.1 hs)⟩
  · rintro ⟨_, h⟩ d hd hs
    exact h d hd (Nat.le_sqrt.2 hs)

/-! ## Claims C1 and C2 -/

set_option maxRecDepth 100000 in
/-- C1 (fails on the code): `3221225473 = 3 * 2^30 + 1` is a prime number below `2^63`,
and `isPrime`, its products wrapping modulo `2^64`, returns `false` on it: the products
`result * base` and `base * base` of `modularExponentiation` overflow once the modulus
exceeds `3037000500`. -/
theorem isPrime_false_on_prime_3221225473 :
    Nat.Prime 3221225473 ∧ isPrime 3221225473 = some false := by
  refine ⟨prime_of_noDivisorBelow 3221225473 56757 (by norm_num) (by norm_num) (by decide!),
    by decide⟩

/-- C2: for every integer `n` with `2 ≤ n ≤ 10^7`, `isPrime n` returns `true` iff no `d`
with `2 ≤ d` and `d * d ≤ n` divides `n`, and returns `false` otherwise. -/
theorem isPrime_agrees_with_trial_division (n : Nat) (h2 : 2 ≤ n) (hmax : n ≤ 10 ^ 7) :
    (isPrime (n : Int) = some true ↔ ∀ d : Nat, 2 ≤ d → d * d ≤ n → ¬ d ∣ n) ∧
      (isPrime (n : Int) = some false ↔ ¬ ∀ d : Nat, 2 ≤ d → d * d ≤ n → ¬ d ∣ n) := by
  rw [trial_division_iff_prime n h2]
  have hmax2 : n ≤ 10000000 := by
    have : (10 : Nat) ^ 7 = 10000000 := by norm_num
    omega
  by_cases hp : n.Prime
  · have := isPrime_of_prime n hp (by omega)
    rw [this]
    simp [hp]
  · have hfalse : isPrime (n : Int) = some false := by
      rcases Nat.mod_two_eq_zero_or_one n with h0 | h1
      · have hn4 : 4 ≤ n := by
          by_contra h
          have h2' : n = 2 := by omega
          rw [h2'] at hp
          exact hp Nat.prime_two
        exact isPrime_even (n : Int) (by omega) (by omega)
      · have hn5 : 5 ≤ n := by
          by_contra h
          have h3 : n = 3 := by omega
          rw [h3] at hp
          exact hp Nat.prime_three
        exact isPrime_false_of_composite n hn5 hmax2 h1 hp
    rw [hfalse]
    simp [hp]

set_option maxRecDepth 100000 in
theorem isPrime_agrees_with_trial_division_witness :
    2 ≤ 2047 ∧ 2047 ≤ 10 ^ 7 ∧
      ((isPrime ((2047 : Nat) : Int) = some true ↔
          ∀ d : Nat, 2 ≤ d → d * d ≤ 2047 → ¬ d ∣ 2047) ∧
        (isPrime ((2047 : Nat) : Int) = some false ↔
          ¬ ∀ d : Nat, 2 ≤ d → d * d ≤ 2047 → ¬ d ∣ 2047)) :=
  ⟨by decide, by decide, isPrime_agrees_with_trial_division 2047 (by decide) (by decide)⟩

end Caboose
